import Mathlib

/-!
# Verification of the text-on-canvas extraction/segmentation engine

Shallow embedding of `src/index.js`: the sentence splitter
(`splitBySentences`), the line/buffer accumulation rules
(`processTextNode`, `processLineForSentences`, `flushLineBuffer`,
`processBufferToResults`), the inline-vs-standalone decision for leaf
elements (`hasElementSurroundingText`, `processLeafElement`) and the
container traversal (`processContainer`).

Strings are modelled as `List Char` internally (a JS string is a sequence
of code units; all inputs of interest here are plain characters), with
`String`-level wrappers at the API boundary keeping the source's names.
-/

/-- The set matched by `PUNCTUATION_REGEX = /[.;?!]/` in the source. -/
def isPunct (c : Char) : Bool :=
  c = '.' || c = ';' || c = '?' || c = '!'

/-- The character class `\s` of JavaScript regular expressions, which is
also the set stripped by `String.prototype.trim`. -/
def isWs (c : Char) : Bool :=
  c = ' ' || c = '\t' || c = '\n' || c = '\r' ||
  c = '\u000b' || c = '\u000c' || c = '\u00a0' || c = '\u1680' ||
  ('\u2000' ≤ c && c ≤ '\u200a') || c = '\u2028' || c = '\u2029' ||
  c = '\u202f' || c = '\u205f' || c = '\u3000' || c = '\ufeff'

/-- The character class `\w` of JavaScript regular expressions. -/
def isWordChar (c : Char) : Bool :=
  ('a' ≤ c && c ≤ 'z') || ('A' ≤ c && c ≤ 'Z') ||
  ('0' ≤ c && c ≤ '9') || c = '_'

/-- JS `s.trim()` is non-empty, i.e. `s` has a non-whitespace character. -/
def hasNonWs (l : List Char) : Bool :=
  l.any (fun c => !isWs c)

/-- JS `String.prototype.trimStart`. -/
def trimStartChars (l : List Char) : List Char :=
  l.dropWhile isWs

/-- JS `String.prototype.trim`: strip `\s` from both ends. -/
def trimChars (l : List Char) : List Char :=
  ((l.dropWhile isWs).reverse.dropWhile isWs).reverse

/-- The scanning loop of `splitBySentences`.  `inPunct` records that the
previous character was terminal punctuation (the JS code expresses this
with an inner `while` that greedily extends the punctuation run and the
look-ahead at index `j`); `current` is the accumulator.  On a punctuation
character we enter (or stay in) the run; leaving the run at a whitespace
character emits `current`, leaving it at any other character or extending
past end-of-input behaves exactly as the JS index arithmetic does. -/
def splitGo (inPunct : Bool) (current : List Char) : List Char → List (List Char)
  | [] =>
      if inPunct then [current]
      else if hasNonWs current then [current] else []
  | c :: rest =>
      if inPunct then
        if isPunct c then splitGo true (current ++ [c]) rest
        else if isWs c then current :: splitGo false [c] rest
        else splitGo false (current ++ [c]) rest
      else
        if isPunct c then splitGo true (current ++ [c]) rest
        else splitGo false (current ++ [c]) rest

/-- JS `splitBySentences` from the source, on character lists. -/
def splitBySentencesL (text : List Char) : List (List Char) :=
  splitGo false [] text

/-- JS `splitBySentences(text)`: split text by sentence-ending punctuation,
keeping the punctuation. -/
def splitBySentences (text : String) : List String :=
  (splitBySentencesL text.data).map String.mk

example : splitBySentences "Hello world. This is great! Done" =
    ["Hello world.", " This is great!", " Done"] := by decide

example : splitBySentences "" = [] := by decide

example : splitBySentences "   " = [] := by decide

example : splitBySentences "a.b. " = ["a.b."] := by decide

example : splitBySentences "a?! b" = ["a?!", " b"] := by decide

/-!
## Document tree model

A DOM node is a text node or an element node.  Element visibility is the
result of the external `isVisible` capability (computed style), recorded
as a snapshot field.  `childNodes` is the full ordered child list
(text and element nodes); the DOM's `children` collection of
`isLeafElement` is the sublist of element nodes.
-/

inductive Node where
  | text (s : String)
  | elem (tag : String) (visible : Bool) (childNodes : List Node)

/-- JS `child.nodeType === Node.TEXT_NODE`. -/
def isTextNode : Node → Bool
  | .text _ => true
  | .elem _ _ _ => false

/-- JS `nodeType === Node.ELEMENT_NODE`. -/
def isElementNode : Node → Bool
  | .text _ => false
  | .elem _ _ _ => true

/-- The recorded result of the external `isVisible(element)` capability. -/
def isVisible : Node → Bool
  | .text _ => true
  | .elem _ v _ => v

/-- JS `textContent` of a text node. -/
def textOf : Node → String
  | .text s => s
  | .elem _ _ _ => ""

/-- JS `isLeafElement(element)`: `element.children.length === 0`, i.e. no
element child (text children allowed). -/
def isLeafElement : Node → Bool
  | .text _ => false
  | .elem _ _ cs => cs.all (fun c => !isElementNode c)

/-- JS `isLineBreak(element)`: `element.tagName === 'BR'`. -/
def isLineBreak : Node → Bool
  | .text _ => false
  | .elem tag _ _ => tag = "BR"

/-- JS `isThematicBreak(element)`: `element.tagName === 'HR'`. -/
def isThematicBreak : Node → Bool
  | .text _ => false
  | .elem tag _ _ => tag = "HR"

mutual
/-- JS `node.textContent`: concatenation of all descendant text, in document
order (character-list form). -/
def textContentL : Node → List Char
  | .text s => s.data
  | .elem _ _ cs => textContentListL cs

/-- JS `textContent` of a child-node list. -/
def textContentListL : List Node → List Char
  | [] => []
  | c :: rest => textContentL c ++ textContentListL rest
end

/-- JS `element.textContent = s`: replaces all children with the single text
node `s` (with no child at all when `s` is empty). -/
def setTextContent : Node → String → Node
  | .text _, s => .text s
  | .elem tag vis _, s => .elem tag vis (if s.isEmpty then [] else [.text s])

/-!
## Output blocks

The JS code emits two kinds of result entries: fresh `p` elements whose
`textContent` is a trimmed sentence (`TextBlock`), and normalized deep
clones of preserved elements (`PreservedElement`).
-/

inductive Block where
  | textBlock (s : String)
  | preserved (e : Node)

/-- JS `.trim().replace(/\n/g, ' ')` step: each newline becomes a space. -/
def replaceNewlines (l : List Char) : List Char :=
  l.map (fun c => if c = '\n' then ' ' else c)

/-- JS `.replace(/\s+/g, ' ')`: each maximal run of `\s` characters becomes a
single space.  `prevWs` records whether the previous character was part of
a run already replaced. -/
def collapseWsGo (prevWs : Bool) : List Char → List Char
  | [] => []
  | c :: rest =>
      if isWs c then
        if prevWs then collapseWsGo true rest
        else ' ' :: collapseWsGo true rest
      else c :: collapseWsGo false rest

/-- JS `textContent.trim().replace(/\n/g, ' ').replace(/\s+/g, ' ')`. -/
def normalizeText (l : List Char) : List Char :=
  collapseWsGo false (replaceNewlines (trimChars l))

/-- JS `cloneNode(true)` followed by the textContent normalization applied to
preserved elements (the clone of a value is the value itself). -/
def normalizeClone (child : Node) : Node :=
  setTextContent child (String.mk (normalizeText (textContentL child)))

/-!
## Buffer handling
-/

/-- The emission loop shared by `processBufferToResults` and
`processLineForSentences`: push `p`-blocks for the sentences in order,
trimmed, skipping those that trim to empty. -/
def emitSentences (ss : List (List Char)) (res : List Block) : List Block :=
  match ss with
  | [] => res
  | s :: rest =>
      if hasNonWs s then
        emitSentences rest (res ++ [Block.textBlock (String.mk (trimChars s))])
      else emitSentences rest res

/-- JS `processBufferToResults(textBuffer, results)`. -/
def processBufferToResults (textBuffer : List Char) (results : List Block) : List Block :=
  if !hasNonWs textBuffer then results
  else emitSentences (splitBySentencesL textBuffer) results

/-- JS `processLineForSentences(line, buffer, results)`. -/
def processLineForSentences (line buffer : List Char) (results : List Block) :
    List Char × List Block :=
  let updatedBuffer := buffer ++ line
  let sentences := splitBySentencesL updatedBuffer
  if sentences.length > 1 then
    (sentences.getLastD [], emitSentences sentences.dropLast results)
  else
    (updatedBuffer, results)

/-- JS `flushLineBuffer(buffer, results)`. -/
def flushLineBuffer (buffer : List Char) (results : List Block) :
    List Char × List Block :=
  if hasNonWs buffer then
    ([], results ++ [Block.textBlock (String.mk (trimChars buffer))])
  else ([], results)

/-- JS `splitTextIntoLines(text)`: `text.split('\n')`. -/
def splitTextIntoLines : List Char → List (List Char)
  | [] => [[]]
  | c :: rest =>
      if c = '\n' then [] :: splitTextIntoLines rest
      else
        match splitTextIntoLines rest with
        | [] => [[c]]
        | l :: ls => (c :: l) :: ls

/-- One iteration of the line loop of `processTextNode`: a line containing
terminal punctuation goes through `processLineForSentences`, any other
line is appended to the buffer verbatim. -/
def processOneLine (line buffer : List Char) (results : List Block) :
    List Char × List Block :=
  if line.any isPunct then processLineForSentences line buffer results
  else (buffer ++ line, results)

/-- The line loop of `processTextNode`: after every line but the last
(`!isLastLine(lineIndex)`), the buffer is force-flushed. -/
def processLines : List (List Char) → List Char → List Block → List Char × List Block
  | [], buffer, results => (buffer, results)
  | [line], buffer, results => processOneLine line buffer results
  | line :: line2 :: lines, buffer, results =>
      let r := processOneLine line buffer results
      let f := flushLineBuffer r.1 r.2
      processLines (line2 :: lines) f.1 f.2

/-- JS `processTextNode(text, textBuffer, containerResults)`. -/
def processTextNode (text : String) (textBuffer : List Char)
    (containerResults : List Block) : List Char × List Block :=
  processLines (splitTextIntoLines text.data) textBuffer containerResults

/-!
## Leaf elements and the standalone decision
-/

/-- JS `getFollowingText(element)`: walk the following siblings; the first
text node ends the walk with its content, the first element node ends it
with the empty string. -/
def getFollowingText : List Node → List Char
  | [] => []
  | .text t :: _ => t.data
  | .elem _ _ _ :: _ => []

/-- JS `followingText.trimStart().match(/^[.;?!]\s/)` is non-null. -/
def startsPunctWs : List Char → Bool
  | a :: b :: _ => isPunct a && isWs b
  | _ => false

/-- JS `/^[^\w\s]/.test(s)`: the first character exists and is neither a word
character nor whitespace. -/
def startsNonWordNonWs : List Char → Bool
  | [] => false
  | c :: _ => !isWordChar c && !isWs c

/-- JS `hasElementSurroundingText(precedingText, followingText)`. -/
def hasElementSurroundingText (precedingText followingText : List Char) : Bool :=
  let followingStartsWithPunctuation := startsNonWordNonWs (trimStartChars followingText)
  decide (precedingText.length > 0) ||
    (hasNonWs followingText &&
     !startsPunctWs (trimStartChars followingText) &&
     followingStartsWithPunctuation)

/-- JS `processLeafElement(child, textBuffer, containerResults)`; `following`
is the sibling list after `child`, read by `getFollowingText`. -/
def processLeafElement (child : Node) (following : List Node)
    (textBuffer : List Char) (containerResults : List Block) :
    List Char × List Block :=
  let elementTextContent := trimChars (textContentL child)
  let precedingText := trimChars textBuffer
  let followingText := getFollowingText following
  let followingStartsWithPunctuation := startsNonWordNonWs (trimStartChars followingText)
  let hasSurroundingText := hasElementSurroundingText precedingText followingText
  if hasSurroundingText || followingStartsWithPunctuation then
    (textBuffer ++ elementTextContent, containerResults)
  else
    ([], processBufferToResults textBuffer containerResults ++
          [Block.preserved (normalizeClone child)])

/-- JS `processLineBreak(_child, textBuffer, containerResults)`. -/
def processLineBreak (textBuffer : List Char) (containerResults : List Block) :
    List Char × List Block :=
  ([], processBufferToResults textBuffer containerResults)

/-- JS `processThematicBreak(child, textBuffer, containerResults)`: the text
normalization is applied only when the clone's `textContent` is non-empty
(truthy). -/
def processThematicBreak (child : Node) (textBuffer : List Char)
    (containerResults : List Block) : List Char × List Block :=
  let cloned := if (textContentL child).isEmpty then child else normalizeClone child
  ([], processBufferToResults textBuffer containerResults ++ [Block.preserved cloned])

/-!
## Container traversal

`processContainer` iterates `childNodes`: text nodes go to
`processTextNode`; visible elements are dispatched per
`getElementProcessor` (line break, thematic break, leaf, non-leaf);
invisible elements are skipped.  After the loop the remaining buffer is
flushed.  The non-leaf branch (`processNonLeafElement`) flushes and
recurses into the child as a sub-container.
-/

mutual
def processContainer : Node → List Block
  | .text _ => []
  | .elem _ _ cs =>
      let r := processChildren cs [] []
      processBufferToResults r.1 r.2

def processChildren : List Node → List Char → List Block → List Char × List Block
  | [], textBuffer, containerResults => (textBuffer, containerResults)
  | child :: rest, textBuffer, containerResults =>
      if isTextNode child then
        let r := processTextNode (textOf child) textBuffer containerResults
        processChildren rest r.1 r.2
      else if isVisible child then
        let r :=
          if isLineBreak child then processLineBreak textBuffer containerResults
          else if isThematicBreak child then
            processThematicBreak child textBuffer containerResults
          else if isLeafElement child then
            processLeafElement child rest textBuffer containerResults
          else
            ([], processBufferToResults textBuffer containerResults ++
                   processContainer child)
        processChildren rest r.1 r.2
      else processChildren rest textBuffer containerResults
end

/-- JS `extractVisibleTextualContent()` applied to a body whose child list is
`cs`. -/
def extractVisibleTextualContent (body : Node) : List Block :=
  processContainer body

/-!
## Closed forms for the handlers

Each handler appends to `results` and computes its new buffer
independently of `results`; the lemmas below give these closed forms,
used both for claims and for the results-threading arguments.
-/

/-- The blocks that the emission loop appends for a sentence list:
trimmed sentences, those trimming to empty dropped. -/
def sentenceBlocks (ss : List (List Char)) : List Block :=
  ss.filterMap fun s =>
    if hasNonWs s then some (Block.textBlock (String.mk (trimChars s))) else none

theorem emitSentences_eq (ss : List (List Char)) (res : List Block) :
    emitSentences ss res = res ++ sentenceBlocks ss := by
  induction ss generalizing res with
  | nil => simp [emitSentences, sentenceBlocks]
  | cons s rest ih =>
      cases h : hasNonWs s <;>
        simp [emitSentences, sentenceBlocks, h, ih, List.filterMap_cons]

/-- The blocks produced by flushing a buffer through the sentence splitter
(`processBufferToResults`). -/
def bufferBlocks (textBuffer : List Char) : List Block :=
  if !hasNonWs textBuffer then [] else sentenceBlocks (splitBySentencesL textBuffer)

theorem processBufferToResults_eq (textBuffer : List Char) (results : List Block) :
    processBufferToResults textBuffer results = results ++ bufferBlocks textBuffer := by
  unfold processBufferToResults bufferBlocks
  split <;> simp [emitSentences_eq]

/-- The at-most-one block that the newline force-flush appends: the whole
remaining buffer, trimmed, as a single TextBlock (or nothing when the
buffer is whitespace-only). -/
def bufferTrimBlock (buffer : List Char) : List Block :=
  if hasNonWs buffer then [Block.textBlock (String.mk (trimChars buffer))] else []

theorem flushLineBuffer_eq (buffer : List Char) (results : List Block) :
    flushLineBuffer buffer results = ([], results ++ bufferTrimBlock buffer) := by
  unfold flushLineBuffer bufferTrimBlock
  split <;> simp

/-- The new buffer after one line of the `processTextNode` loop. -/
def lineNewBuffer (line buffer : List Char) : List Char :=
  if line.any isPunct then
    (let ss := splitBySentencesL (buffer ++ line)
     if ss.length > 1 then ss.getLastD [] else buffer ++ line)
  else buffer ++ line

/-- The blocks appended by one line of the `processTextNode` loop. -/
def lineDelta (line buffer : List Char) : List Block :=
  if line.any isPunct then
    (let ss := splitBySentencesL (buffer ++ line)
     if ss.length > 1 then sentenceBlocks ss.dropLast else [])
  else []

theorem processLineForSentences_eq (line buffer : List Char) (results : List Block) :
    processLineForSentences line buffer results =
      (let ss := splitBySentencesL (buffer ++ line)
       if ss.length > 1 then (ss.getLastD [], results ++ sentenceBlocks ss.dropLast)
       else (buffer ++ line, results)) := by
  by_cases h : (splitBySentencesL (buffer ++ line)).length > 1 <;>
    simp [processLineForSentences, h, emitSentences_eq]

theorem processOneLine_eq (line buffer : List Char) (results : List Block) :
    processOneLine line buffer results =
      (lineNewBuffer line buffer, results ++ lineDelta line buffer) := by
  by_cases hp : line.any isPunct
  · by_cases h : (splitBySentencesL (buffer ++ line)).length > 1 <;>
      simp [processOneLine, processLineForSentences_eq, lineNewBuffer, lineDelta, hp, h]
  · simp [processOneLine, lineNewBuffer, lineDelta, hp]

/-- The buffer left by the line loop of `processTextNode`: every line but
the last is followed by a force-flush, so only the final line's buffer
survives. -/
def linesNewBuffer : List (List Char) → List Char → List Char
  | [], buffer => buffer
  | [line], buffer => lineNewBuffer line buffer
  | _ :: line2 :: lines, _ => linesNewBuffer (line2 :: lines) []

/-- The blocks appended by the line loop of `processTextNode`. -/
def linesDelta : List (List Char) → List Char → List Block
  | [], _ => []
  | [line], buffer => lineDelta line buffer
  | line :: line2 :: lines, buffer =>
      lineDelta line buffer ++ bufferTrimBlock (lineNewBuffer line buffer) ++
        linesDelta (line2 :: lines) []

theorem processLines_eq (lines : List (List Char)) :
    ∀ buffer results, processLines lines buffer results =
      (linesNewBuffer lines buffer, results ++ linesDelta lines buffer) := by
  induction lines with
  | nil => intro buffer results; simp [processLines, linesNewBuffer, linesDelta]
  | cons l ls ih =>
      cases ls with
      | nil =>
          intro buffer results
          simp [processLines, processOneLine_eq, linesNewBuffer, linesDelta]
      | cons l2 ls2 =>
          intro buffer results
          simp [processLines, processOneLine_eq, flushLineBuffer_eq, ih,
            linesNewBuffer, linesDelta, List.append_assoc]

theorem processTextNode_eq (text : String) (textBuffer : List Char)
    (containerResults : List Block) :
    processTextNode text textBuffer containerResults =
      (linesNewBuffer (splitTextIntoLines text.data) textBuffer,
        containerResults ++ linesDelta (splitTextIntoLines text.data) textBuffer) :=
  processLines_eq _ _ _

/-- The `hasSurroundingText || followingStartsWithPunctuation` condition of
`processLeafElement`, deciding embedded (true) versus standalone (false). -/
def leafEmbeds (child : Node) (following : List Node) (textBuffer : List Char) : Bool :=
  hasElementSurroundingText (trimChars textBuffer) (getFollowingText following) ||
    startsNonWordNonWs (trimStartChars (getFollowingText following))

theorem processLeafElement_eq (child : Node) (following : List Node)
    (textBuffer : List Char) (results : List Block) :
    processLeafElement child following textBuffer results =
      (if leafEmbeds child following textBuffer then
        (textBuffer ++ trimChars (textContentL child), results)
      else
        ([], results ++ bufferBlocks textBuffer ++
              [Block.preserved (normalizeClone child)])) := by
  by_cases h : leafEmbeds child following textBuffer = true <;>
    simp only [leafEmbeds] at h <;>
    simp [processLeafElement, leafEmbeds, h, processBufferToResults_eq,
      List.append_assoc]

theorem processLineBreak_eq (textBuffer : List Char) (results : List Block) :
    processLineBreak textBuffer results = ([], results ++ bufferBlocks textBuffer) := by
  simp [processLineBreak, processBufferToResults_eq]

theorem processThematicBreak_eq (child : Node) (textBuffer : List Char)
    (results : List Block) :
    processThematicBreak child textBuffer results =
      ([], results ++ bufferBlocks textBuffer ++
            [Block.preserved
              (if (textContentL child).isEmpty then child else normalizeClone child)]) := by
  simp [processThematicBreak, processBufferToResults_eq, List.append_assoc]

/-- The new buffer after the traversal loop handles one child (`following`
is the sibling list after it, consulted only by the leaf lookahead). -/
def childNewBuffer (child : Node) (following : List Node) (buffer : List Char) : List Char :=
  if isTextNode child then linesNewBuffer (splitTextIntoLines (textOf child).data) buffer
  else if isVisible child then
    if isLineBreak child then []
    else if isThematicBreak child then []
    else if isLeafElement child then
      (if leafEmbeds child following buffer then buffer ++ trimChars (textContentL child)
       else [])
    else []
  else buffer

/-- The blocks the traversal loop appends for one child. -/
def childDelta (child : Node) (following : List Node) (buffer : List Char) : List Block :=
  if isTextNode child then linesDelta (splitTextIntoLines (textOf child).data) buffer
  else if isVisible child then
    if isLineBreak child then bufferBlocks buffer
    else if isThematicBreak child then
      bufferBlocks buffer ++
        [Block.preserved (if (textContentL child).isEmpty then child else normalizeClone child)]
    else if isLeafElement child then
      (if leafEmbeds child following buffer then []
       else bufferBlocks buffer ++ [Block.preserved (normalizeClone child)])
    else bufferBlocks buffer ++ processContainer child
  else []

theorem processChildren_cons (child : Node) (rest : List Node) (buffer : List Char)
    (results : List Block) :
    processChildren (child :: rest) buffer results =
      processChildren rest (childNewBuffer child rest buffer)
        (results ++ childDelta child rest buffer) := by
  simp only [processChildren, childNewBuffer, childDelta]
  split_ifs with h1 h2 h3 h4 h5 h6 <;>
    simp [processTextNode_eq, processLineBreak_eq, processThematicBreak_eq,
      processLeafElement_eq, processBufferToResults_eq, List.append_assoc, *]

theorem processChildren_eq (ns : List Node) :
    ∀ buffer results, processChildren ns buffer results =
      ((processChildren ns buffer []).1, results ++ (processChildren ns buffer []).2) := by
  induction ns with
  | nil => intro buffer results; simp [processChildren]
  | cons child rest ih =>
      intro buffer results
      rw [processChildren_cons, processChildren_cons child rest buffer []]
      rw [ih (childNewBuffer child rest buffer) (results ++ childDelta child rest buffer),
        ih (childNewBuffer child rest buffer) (List.nil ++ childDelta child rest buffer)]
      simp [List.append_assoc]

/-!
## Splitter lemmas
-/

theorem not_hasNonWs_all_ws {l : List Char} (h : ¬ hasNonWs l = true) :
    l.all isWs = true := by
  simp only [hasNonWs, List.any_eq_true, Bool.not_eq_true', not_exists, not_and,
    Bool.not_eq_false] at h
  simpa [List.all_eq_true] using h

/-- Every character of the input lands in exactly one emitted fragment, in
order, except possibly a trailing whitespace-only accumulator that the
final `if (current.trim())` check discards. -/
theorem splitGo_flatten (l : List Char) :
    ∀ (b : Bool) (cur : List Char), ∃ r : List Char, r.all isWs = true ∧
      (splitGo b cur l).flatten ++ r = cur ++ l := by
  induction l with
  | nil =>
      intro b cur
      cases b with
      | true => exact ⟨[], by simp, by simp [splitGo]⟩
      | false =>
          by_cases h : hasNonWs cur = true
          · exact ⟨[], by simp, by simp [splitGo, h]⟩
          · exact ⟨cur, not_hasNonWs_all_ws h, by simp [splitGo, h]⟩
  | cons c rest ih =>
      intro b cur
      cases b with
      | false =>
          by_cases hp : isPunct c = true
          · obtain ⟨r, hr, he⟩ := ih true (cur ++ [c])
            exact ⟨r, hr, by simpa [splitGo, hp, List.append_assoc] using he⟩
          · obtain ⟨r, hr, he⟩ := ih false (cur ++ [c])
            exact ⟨r, hr, by simpa [splitGo, hp, List.append_assoc] using he⟩
      | true =>
          by_cases hp : isPunct c = true
          · obtain ⟨r, hr, he⟩ := ih true (cur ++ [c])
            exact ⟨r, hr, by simpa [splitGo, hp, List.append_assoc] using he⟩
          · by_cases hw : isWs c = true
            · obtain ⟨r, hr, he⟩ := ih false [c]
              refine ⟨r, hr, ?_⟩
              simp only [splitGo, hp, hw, if_false, if_true, List.flatten_cons,
                List.append_assoc]
              simp [he]
            · obtain ⟨r, hr, he⟩ := ih false (cur ++ [c])
              exact ⟨r, hr, by simpa [splitGo, hp, hw, List.append_assoc] using he⟩

theorem join_map_mk_data (ls : List (List Char)) :
    (String.join (ls.map String.mk)).data = ls.flatten := by
  rw [String.join_eq]
  have h : (ls.map String.mk).map String.data = ls := by
    induction ls with
    | nil => rfl
    | cons a t iht => simp [iht]
  show ((ls.map String.mk).map String.data).flatten = ls.flatten
  rw [h]

/-- A maximal run of terminal punctuation reached while scanning in
punctuation mode is consumed whole into the current fragment, emitted as
one sentence at end-of-input. -/
theorem splitGo_all_punct (l : List Char) :
    ∀ cur, l.all isPunct = true → splitGo true cur l = [cur ++ l] := by
  induction l with
  | nil => intro cur _; simp [splitGo]
  | cons c rest ih =>
      intro cur h
      simp only [List.all_cons, Bool.and_eq_true] at h
      simp [splitGo, h.1, ih (cur ++ [c]) h.2, List.append_assoc]

/-!
## Claims
-/

/-- C1, counterexample: segmentation is not lossless for whitespace-only
input, nor for input ending in whitespace after terminal punctuation —
the splitter discards a trailing whitespace-only accumulator. -/
theorem C1_counterexample :
    (splitBySentences " " = [] ∧ String.join (splitBySentences " ") ≠ " ") ∧
    (splitBySentences "a. " = ["a."] ∧ String.join (splitBySentences "a. ") ≠ "a. ") := by
  decide

/-- C1 (amended): for every input string `s`, concatenating, in order, all
fragments returned by the sentence splitter reproduces `s` up to a
trailing whitespace-only residue: there is a whitespace-only `r` (empty
unless the text after the last complete sentence is whitespace-only) with
`join (splitBySentences s) ++ r = s`.  Equality can fail exactly when `s`
is whitespace-only or ends in whitespace after a completed sentence. -/
theorem C1_lossless_up_to_trailing_ws (s : String) :
    ∃ r : String, r.data.all isWs = true ∧
      String.join (splitBySentences s) ++ r = s := by
  obtain ⟨r, hr, he⟩ := splitGo_flatten s.data false []
  refine ⟨String.mk r, hr, ?_⟩
  apply String.ext
  rw [String.data_append]
  show (String.join ((splitBySentencesL s.data).map String.mk)).data ++ r = s.data
  rw [join_map_mk_data]
  simpa [splitBySentencesL] using he

/-- C3: a container whose only child is the text node "A.\nB" yields the
two TextBlocks "A." then "B"; every non-final line of a text node
force-flushes the buffer (the continuation runs with an empty buffer),
while the final line's buffer persists (no flush). -/
theorem C3_newline_hard_boundary :
    processContainer (.elem "DIV" true [.text "A.\nB"]) =
      [Block.textBlock "A.", Block.textBlock "B"] ∧
    (∀ (line line2 : List Char) (lines : List (List Char))
        (buffer : List Char) (results : List Block),
       processLines (line :: line2 :: lines) buffer results =
         processLines (line2 :: lines) []
           ((flushLineBuffer (processOneLine line buffer results).1
               (processOneLine line buffer results).2).2)) ∧
    (∀ (line buffer : List Char) (results : List Block),
       processLines [line] buffer results = processOneLine line buffer results) := by
  refine ⟨rfl, ?_, ?_⟩
  · intro line line2 lines buffer results
    simp [processLines, flushLineBuffer_eq]
  · intro line buffer results; rfl

/-- C4, counterexample: for the line "a. " (which contains terminal
punctuation) and an empty buffer, the splitter returns the single
fragment "a.", but the handler's new buffer is "a. ", not that last
fragment. -/
theorem C4_counterexample :
    "a. ".data.any isPunct = true ∧
    splitBySentencesL ([] ++ "a. ".data) = ["a.".data] ∧
    (processLineForSentences "a. ".data [] []).1 = "a. ".data ∧
    "a. ".data ≠ "a.".data := by
  decide

/-- C4 (amended): for every line containing terminal punctuation the
handler concatenates buffer+line and runs the splitter; when the splitter
returns more than one fragment it emits every fragment except the last as
a TextBlock (trimmed, dropped if empty after trimming) and the new buffer
is exactly the last fragment; when it returns at most one fragment,
nothing is emitted and the new buffer is buffer+line unchanged (which may
differ from the last returned fragment by trailing whitespace). -/
theorem C4_line_splitting (line buffer : List Char) (results : List Block)
    (hpunct : line.any isPunct = true) :
    processOneLine line buffer results =
      (let ss := splitBySentencesL (buffer ++ line)
       if ss.length > 1 then
         (ss.getLastD [],
           results ++ ss.dropLast.filterMap fun s =>
             if hasNonWs s then some (Block.textBlock (String.mk (trimChars s)))
             else none)
       else (buffer ++ line, results)) := by
  simp [processOneLine, hpunct, processLineForSentences_eq, sentenceBlocks]

/-- C4, witness at line "x. y." with empty buffer. -/
theorem C4_witness :
    processOneLine "x. y.".data [] [] =
      (let ss := splitBySentencesL ([] ++ "x. y.".data)
       if ss.length > 1 then
         (ss.getLastD [],
           [] ++ ss.dropLast.filterMap fun s =>
             if hasNonWs s then some (Block.textBlock (String.mk (trimChars s)))
             else none)
       else ([] ++ "x. y.".data, [])) :=
  C4_line_splitting "x. y.".data [] [] (by decide)

theorem ws_not_punct (c : Char) (h : isWs c = true) : isPunct c = false := by
  cases hp : isPunct c
  · rfl
  · exfalso
    simp only [isPunct, Bool.or_eq_true, decide_eq_true_eq] at hp
    rcases hp with ((h1 | h1) | h1) | h1 <;> subst h1 <;> exact absurd h (by decide)

/-- One scan step: a punctuation character always moves the scan into (or
keeps it in) run mode, appended to the accumulator. -/
theorem splitGo_cons_punct (b : Bool) (cur : List Char) (c : Char)
    (l : List Char) (hc : isPunct c = true) :
    splitGo b cur (c :: l) = splitGo true (cur ++ [c]) l := by
  cases b <;> simp [splitGo, hc]

/-- From any scan state, a nonempty punctuation run followed by a
whitespace character is consumed whole as one boundary: exactly one
sentence (the accumulator plus the entire run) is emitted, and scanning
resumes after it with the whitespace character opening the next
accumulator. -/
theorem splitGo_run_ws (p : List Char) :
    ∀ (b : Bool) (cur : List Char) (w : Char) (t : List Char),
      p ≠ [] → p.all isPunct = true → isWs w = true →
      splitGo b cur (p ++ w :: t) = (cur ++ p) :: splitGo false [w] t := by
  induction p with
  | nil => intro b cur w t hne _ _; exact absurd rfl hne
  | cons c p' ih =>
      intro b cur w t _ hall hw
      simp only [List.all_cons, Bool.and_eq_true] at hall
      cases p' with
      | nil =>
          have hwp : isPunct w = false := ws_not_punct w hw
          rw [List.singleton_append, splitGo_cons_punct b cur c _ hall.1]
          simp [splitGo, hwp, hw]
      | cons c2 p'' =>
          rw [List.cons_append, splitGo_cons_punct b cur c _ hall.1,
            ih true (cur ++ [c]) w t (List.cons_ne_nil _ _) hall.2 hw]
          simp [List.append_assoc]

/-- From any scan state, a nonempty punctuation run that reaches
end-of-input is emitted as one single final sentence. -/
theorem splitGo_run_eoi (p : List Char) (b : Bool) (cur : List Char)
    (hne : p ≠ []) (hall : p.all isPunct = true) :
    splitGo b cur p = [cur ++ p] := by
  cases p with
  | nil => exact absurd rfl hne
  | cons c p' =>
      simp only [List.all_cons, Bool.and_eq_true] at hall
      cases b <;>
        simp [splitGo, hall.1, splitGo_all_punct p' (cur ++ [c]) hall.2,
          List.append_assoc]

/-- From any scan state, a nonempty maximal punctuation run followed by a
character that is neither punctuation nor whitespace terminates nothing:
no sentence is emitted at the run, and the run together with the
following character is absorbed into the accumulator. -/
theorem splitGo_run_nonterminating (p : List Char) :
    ∀ (b : Bool) (cur : List Char) (d : Char) (t : List Char),
      p ≠ [] → p.all isPunct = true → isPunct d = false → isWs d = false →
      splitGo b cur (p ++ d :: t) = splitGo false ((cur ++ p) ++ [d]) t := by
  induction p with
  | nil => intro b cur d t hne _ _ _; exact absurd rfl hne
  | cons c p' ih =>
      intro b cur d t _ hall hd hw
      simp only [List.all_cons, Bool.and_eq_true] at hall
      cases p' with
      | nil =>
          rw [List.singleton_append, splitGo_cons_punct b cur c _ hall.1]
          simp [splitGo, hd, hw, List.append_assoc]
      | cons c2 p'' =>
          rw [List.cons_append, splitGo_cons_punct b cur c _ hall.1,
            ih true (cur ++ [c]) d t (List.cons_ne_nil _ _) hall.2 hd hw]
          simp [List.append_assoc]

/-- C5: the splitter maps "Hello world. This is great! Done" to exactly
["Hello world.", " This is great!", " Done"]; and at any point of the
scan a run of consecutive terminal-punctuation characters is consumed
greedily as a single boundary: followed by whitespace it yields exactly
one sentence (not one per mark) and scanning resumes after it; reaching
end-of-input it yields one single final sentence; followed by any other
character (neither punctuation nor whitespace) it completes nothing —
the run is absorbed into the accumulator.  The top-level conjunct states
the single-boundary case for the splitter entry point itself. -/
theorem C5_example_and_greedy_runs :
    splitBySentences "Hello world. This is great! Done" =
      ["Hello world.", " This is great!", " Done"] ∧
    (∀ (b : Bool) (cur p : List Char) (w : Char) (t : List Char),
       p ≠ [] → p.all isPunct = true → isWs w = true →
       splitGo b cur (p ++ w :: t) = (cur ++ p) :: splitGo false [w] t) ∧
    (∀ (b : Bool) (cur p : List Char), p ≠ [] → p.all isPunct = true →
       splitGo b cur p = [cur ++ p]) ∧
    (∀ (b : Bool) (cur p : List Char) (d : Char) (t : List Char),
       p ≠ [] → p.all isPunct = true → isPunct d = false → isWs d = false →
       splitGo b cur (p ++ d :: t) = splitGo false ((cur ++ p) ++ [d]) t) ∧
    (∀ (p : List Char) (w : Char) (t : List Char),
       p ≠ [] → p.all isPunct = true → isWs w = true →
       splitBySentencesL (p ++ w :: t) = p :: splitGo false [w] t) := by
  refine ⟨by decide, ?_, ?_, ?_, ?_⟩
  · intro b cur p w t hne hall hw
    exact splitGo_run_ws p b cur w t hne hall hw
  · intro b cur p hne hall
    exact splitGo_run_eoi p b cur hne hall
  · intro b cur p d t hne hall hd hw
    exact splitGo_run_nonterminating p b cur d t hne hall hd hw
  · intro p w t hne hall hw
    show splitGo false [] (p ++ w :: t) = p :: splitGo false [w] t
    rw [splitGo_run_ws p false [] w t hne hall hw]
    simp

/-- C5, witness at the run "?!" followed by whitespace inside a larger
input: a single boundary, one emitted sentence. -/
theorem C5_witness :
    splitGo false "a".data ("?!".data ++ ' ' :: "b".data) =
      ("a".data ++ "?!".data) :: splitGo false [' '] "b".data :=
  C5_example_and_greedy_runs.2.1 false "a".data "?!".data ' ' "b".data
    (by decide) (by decide) (by decide)

/-- C10: the newline force-flush (`flushLineBuffer`) emits the whole
remaining buffer as at most one TextBlock (trimmed, never re-split),
whereas the other flush path (`processBufferToResults`) re-runs the
sentence splitter and can emit several TextBlocks from the same buffer:
on the buffer "A. B." the former yields the single block "A. B." and the
latter the two blocks "A.", "B.". -/
theorem C10_flush_paths_differ :
    (∀ (buffer : List Char) (results : List Block),
       flushLineBuffer buffer results =
         ([], results ++
            (if hasNonWs buffer then [Block.textBlock (String.mk (trimChars buffer))]
             else []))) ∧
    flushLineBuffer "A. B.".data [] = ([], [Block.textBlock "A. B."]) ∧
    processBufferToResults "A. B.".data [] =
      [Block.textBlock "A.", Block.textBlock "B."] ∧
    (flushLineBuffer "A. B.".data []).2 ≠ processBufferToResults "A. B.".data [] := by
  refine ⟨?_, rfl, rfl, ?_⟩
  · intro buffer results
    simp [flushLineBuffer_eq, bufferTrimBlock]
  · rw [show (flushLineBuffer "A. B.".data []).2 = [Block.textBlock "A. B."] from rfl,
      show processBufferToResults "A. B.".data [] =
        [Block.textBlock "A.", Block.textBlock "B."] from rfl]
    simp

theorem surroundingText_cond_iff (pre f : List Char) :
    (hasElementSurroundingText pre f || startsNonWordNonWs (trimStartChars f)) = true ↔
      (pre.length > 0 ∨
       (hasNonWs f = true ∧ startsPunctWs (trimStartChars f) = false ∧
        startsNonWordNonWs (trimStartChars f) = true) ∨
       startsNonWordNonWs (trimStartChars f) = true) := by
  simp only [hasElementSurroundingText, Bool.or_eq_true, Bool.and_eq_true,
    decide_eq_true_eq, Bool.not_eq_true']
  tauto

/-- C2: a visible leaf element is merged into the buffer (results left
unchanged) if and only if the trimmed preceding buffer is non-empty, or
the trimmed following text is non-empty and does not begin with a single
terminal-punctuation character followed by whitespace and begins (after
stripping leading whitespace) with a non-word non-whitespace character,
or (independently of the buffer) the following text after stripping
leading whitespace begins with a non-word non-whitespace character;
with an empty buffer, following text " More text" gives standalone and
", continued" gives embedded. -/
theorem C2_standalone_decision :
    (∀ (child : Node) (following : List Node) (textBuffer : List Char)
        (results : List Block),
       ((processLeafElement child following textBuffer results).2 = results ↔
         ((trimChars textBuffer).length > 0 ∨
          (hasNonWs (getFollowingText following) = true ∧
           startsPunctWs (trimStartChars (getFollowingText following)) = false ∧
           startsNonWordNonWs (trimStartChars (getFollowingText following)) = true) ∨
          startsNonWordNonWs (trimStartChars (getFollowingText following)) = true))) ∧
    processLeafElement (.elem "A" true [.text "link"]) [.text " More text"] [] [] =
      ([], [Block.preserved (.elem "A" true [.text "link"])]) ∧
    processLeafElement (.elem "A" true [.text "link"]) [.text ", continued"] [] [] =
      ("link".data, []) := by
  refine ⟨?_, rfl, rfl⟩
  intro child following textBuffer results
  rw [processLeafElement_eq]
  cases hx : leafEmbeds child following textBuffer
  · simp only [Bool.false_eq_true, if_false]
    apply iff_of_false
    · intro he
      apply_fun List.length at he
      simp [List.length_append] at he
    · intro hR
      have hb := (surroundingText_cond_iff (trimChars textBuffer)
        (getFollowingText following)).mpr hR
      rw [show (hasElementSurroundingText (trimChars textBuffer)
            (getFollowingText following) ||
            startsNonWordNonWs (trimStartChars (getFollowingText following))) =
          leafEmbeds child following textBuffer from rfl] at hb
      rw [hx] at hb
      exact Bool.false_ne_true hb
  · simp only [if_true]
    have hb : (hasElementSurroundingText (trimChars textBuffer)
        (getFollowingText following) ||
        startsNonWordNonWs (trimStartChars (getFollowingText following))) = true := hx
    exact iff_of_true trivial ((surroundingText_cond_iff _ _).mp hb)

/-- C6: a visible thematic-break child always contributes a
PreservedElement exactly at its position: after the blocks flushed from
the preceding buffer, before any block of later siblings; the buffer is
cleared for the continuation. -/
theorem C6_thematic_break_in_place (cs rest : List Node) (textBuffer : List Char)
    (results : List Block) :
    processChildren (Node.elem "HR" true cs :: rest) textBuffer results =
      ((processChildren rest [] []).1,
        results ++ bufferBlocks textBuffer ++
          Block.preserved
            (if (textContentL (Node.elem "HR" true cs)).isEmpty
             then Node.elem "HR" true cs
             else normalizeClone (Node.elem "HR" true cs)) ::
          (processChildren rest [] []).2) := by
  rw [processChildren_cons]
  rw [show childNewBuffer (Node.elem "HR" true cs) rest textBuffer = [] from rfl]
  rw [show childDelta (Node.elem "HR" true cs) rest textBuffer =
      bufferBlocks textBuffer ++
        [Block.preserved
          (if (textContentL (Node.elem "HR" true cs)).isEmpty
           then Node.elem "HR" true cs
           else normalizeClone (Node.elem "HR" true cs))] from rfl]
  rw [processChildren_eq rest []
    (results ++ (bufferBlocks textBuffer ++
      [Block.preserved
        (if (textContentL (Node.elem "HR" true cs)).isEmpty
         then Node.elem "HR" true cs
         else normalizeClone (Node.elem "HR" true cs))]))]
  simp [List.append_assoc]

/-- C7, counterexample: an invisible element between a visible leaf and a
following text node changes the output (the lookahead sees the invisible
element and blocks the following text), so removing it is not
output-equivalent. -/
theorem C7_counterexample :
    processContainer
        (.elem "DIV" true
          [.elem "A" true [.text "x"], .elem "SPAN" false [.text "hidden"],
           .text ", y."]) ≠
      processContainer (.elem "DIV" true [.elem "A" true [.text "x"], .text ", y."]) := by
  rw [show processContainer
        (.elem "DIV" true
          [.elem "A" true [.text "x"], .elem "SPAN" false [.text "hidden"],
           .text ", y."]) =
      [Block.preserved (.elem "A" true [.text "x"]), Block.textBlock ", y."] from rfl]
  rw [show processContainer
        (.elem "DIV" true [.elem "A" true [.text "x"], .text ", y."]) =
      [Block.textBlock "x, y."] from rfl]
  simp

/-- C7 (amended): the traversal step over an invisible element child
leaves buffer and results exactly unchanged, contributes zero blocks, adds
no text, and does not recurse, regardless of its text content — though an
invisible sibling can still affect a preceding leaf's lookahead, so it is
not always equivalent to the element being absent from the tree. -/
theorem C7_invisible_skipped (tag : String) (cs rest : List Node)
    (textBuffer : List Char) (results : List Block) :
    processChildren (Node.elem tag false cs :: rest) textBuffer results =
      processChildren rest textBuffer results := rfl

/-- C8: the traversal is deterministic — two invocations on the same
unmutated tree snapshot (equal as values, visibility results included)
return element-for-element equal block sequences. -/
theorem C8_deterministic (container1 container2 : Node)
    (h : container1 = container2) :
    processContainer container1 = processContainer container2 := by rw [h]

/-- C8, witness: two runs on one concrete snapshot agree. -/
theorem C8_witness :
    processContainer (.elem "DIV" true [.text "Hi."]) =
      processContainer (.elem "DIV" true [.text "Hi."]) :=
  C8_deterministic _ _ rfl

/-- C9: whenever a PreservedElement is appended (thematic break, or a leaf
in its standalone branch, recognized by the results changing), the results
are exactly the flush of the pending buffer followed by the preserved
element and the returned buffer is cleared; and a container returns its
children's blocks with the leftover buffer flushed after them (terminal
buffer state EMPTY). -/
theorem C9_buffer_discipline :
    (∀ (child : Node) (textBuffer : List Char) (results : List Block),
       ∃ e, processThematicBreak child textBuffer results =
         ([], (results ++ bufferBlocks textBuffer) ++ [Block.preserved e])) ∧
    (∀ (child : Node) (following : List Node) (textBuffer : List Char)
        (results : List Block),
       (processLeafElement child following textBuffer results).2 ≠ results →
       ∃ e, processLeafElement child following textBuffer results =
         ([], (results ++ bufferBlocks textBuffer) ++ [Block.preserved e])) ∧
    (∀ (tag : String) (vis : Bool) (cs : List Node),
       processContainer (.elem tag vis cs) =
         (processChildren cs [] []).2 ++ bufferBlocks (processChildren cs [] []).1) := by
  refine ⟨?_, ?_, ?_⟩
  · intro child textBuffer results
    refine ⟨if (textContentL child).isEmpty then child else normalizeClone child, ?_⟩
    rw [processThematicBreak_eq, List.append_assoc]
  · intro child following textBuffer results hne
    rw [processLeafElement_eq] at hne ⊢
    cases hx : leafEmbeds child following textBuffer
    · refine ⟨normalizeClone child, ?_⟩
      simp [List.append_assoc]
    · rw [hx] at hne
      simp at hne
  · intro tag vis cs
    show processBufferToResults (processChildren cs [] []).1
        (processChildren cs [] []).2 = _
    rw [processBufferToResults_eq]

/-- C9, witness: a standalone leaf (empty buffer, no following sibling)
appends its preserved element right after the (empty) flush. -/
theorem C9_witness :
    ∃ e, processLeafElement (.elem "B" true [.text "Note"]) [] [] [] =
      ([], ([] ++ bufferBlocks []) ++ [Block.preserved e]) :=
  C9_buffer_discipline.2.1 (.elem "B" true [.text "Note"]) [] [] []
    (by
      rw [show (processLeafElement (.elem "B" true [.text "Note"]) [] [] []).2 =
          [Block.preserved (.elem "B" true [.text "Note"])] from rfl]
      simp)
